import Mathlib

/-!
# Verification of srt core primitives against their specification

This file formalises, in a shallow embedding, the parts of the srt repository
that the specification's claims are about:

* the sender loss list `CSndLossList` (the repository ships only its unit
  tests under `test/test_list.cpp`; the container itself is modelled from the
  specification, §3 and §4.3);
* the time conversion helpers, `Condition::wait_until` and `FormatTime` from
  `srtcore/sync.cpp`;
* `MessageTypeStr` from `srtcore/common.cpp`.

Sequence numbers are 31-bit integers with wrap-around; comparison is via the
signed 31-bit difference (spec §3).  All loss-list operations are written with
the modular comparison functions and the main theorems are stated for states
whose live window has been normalised to `[0, 2^30 - 1)`, which is the regime
in which the spec's "modular order" is a well-defined total order.
-/

namespace Srt

/-! ## Sequence number arithmetic (modelled from the spec, §3) -/

/-- The sequence number space: 31-bit, wrap-around. -/
def SEQ_MOD : Nat := 2 ^ 31

/-- Half of the sequence space; offsets `< SEQ_HALF` are "positive". -/
def SEQ_HALF : Nat := 2 ^ 30

/-- Working window bound used by the invariants: all live sequence numbers
are kept below `SEQ_B`, so that `x + 1` is still strictly below `SEQ_HALF`
and every comparison made by the operations falls inside one half-window. -/
def SEQ_B : Nat := 2 ^ 30 - 1

/-- Modelled from the spec: `seqoff(a,b) = b − a (mod 2^31)` taken as signed.
A positive value is the count of sequence numbers in the half-open interval. -/
def seqoff (a b : Nat) : Int :=
  let d := (b % SEQ_MOD + (SEQ_MOD - a % SEQ_MOD)) % SEQ_MOD
  if d < SEQ_HALF then (d : Int) else (d : Int) - (SEQ_MOD : Int)

/-- `a ≤ b` in modular 31-bit order. -/
def seqle (a b : Nat) : Bool := decide (0 ≤ seqoff a b)

/-- `a < b` in modular 31-bit order. -/
def seqlt (a b : Nat) : Bool := decide (0 < seqoff a b)

/-- Successor in the 31-bit sequence space. -/
def seqinc (a : Nat) : Nat := (a + 1) % SEQ_MOD

/-- In one half-window the signed modular offset is the plain difference. -/
theorem seqoff_eq {a b : Nat} (ha : a < SEQ_HALF) (hb : b < SEQ_HALF) :
    seqoff a b = (b : Int) - (a : Int) := by
  simp only [seqoff, SEQ_MOD, SEQ_HALF] at *
  split <;> omega

theorem seqle_iff {a b : Nat} (ha : a < SEQ_HALF) (hb : b < SEQ_HALF) :
    seqle a b = true ↔ a ≤ b := by
  simp only [seqle, seqoff_eq ha hb, decide_eq_true_eq]
  omega

theorem seqlt_iff {a b : Nat} (ha : a < SEQ_HALF) (hb : b < SEQ_HALF) :
    seqlt a b = true ↔ a < b := by
  simp only [seqlt, seqoff_eq ha hb, decide_eq_true_eq]
  omega

theorem seqinc_eq {a : Nat} (ha : a < SEQ_HALF) : seqinc a = a + 1 := by
  simp only [seqinc, SEQ_MOD, SEQ_HALF] at *
  omega

theorem seqle_eq {a b : Nat} (ha : a < SEQ_HALF) (hb : b < SEQ_HALF) :
    seqle a b = decide (a ≤ b) := by
  unfold seqle
  rw [seqoff_eq ha hb]
  exact decide_eq_decide.mpr (by omega)

theorem seqlt_eq {a b : Nat} (ha : a < SEQ_HALF) (hb : b < SEQ_HALF) :
    seqlt a b = decide (a < b) := by
  unfold seqlt
  rw [seqoff_eq ha hb]
  exact decide_eq_decide.mpr (by omega)

/-- For `t` in the window and `seq` in the far half of the sequence space,
`t ≤ seq` in modular order iff `seq` is less than half a window ahead. -/
theorem seqle_far {t seq : Nat} (ht : t < SEQ_HALF) (h1 : SEQ_HALF ≤ seq)
    (h2 : seq < SEQ_MOD) : (seqle t seq = true) ↔ seq - t < SEQ_HALF := by
  simp only [seqle, seqoff, SEQ_MOD, SEQ_HALF, decide_eq_true_eq] at *
  split <;> omega

/-! ## The sender loss list

Modelled from the spec: the repository's `CSndLossList` implementation
(`srtcore/list.cpp` / `list.h`) is not among the shipped sources, only its unit
tests are.  The model below follows §3 ("Loss list entry", "SLL invariants")
and §4.3 of the specification: the state is the ordered chain of disjoint
closed ranges `(head, tail)` together with the scalar `length` and the fixed
`capacity`; `insert` coalesces overlapping or immediately adjacent ranges,
`popLostSeq` pops the smallest sequence number, `remove` drops everything up
to and including its argument, stopping at the first range in the modular
future.  The `last_insert_ptr` hint of §9 is purely an acceleration cache with
no observable effect, and is not modelled. -/

/-- An entry of the loss list: a closed range `[head, tail]` of lost
sequence numbers. -/
abbrev LossEntry := Nat × Nat

/-- Modelled from the spec (§3, §4.3): the sender loss list state. -/
structure CSndLossList where
  capacity : Nat
  entries : List LossEntry
  length : Int
deriving DecidableEq, Repr

/-- Modelled from the spec (§4.3): `SndLossList(capacity)` starts empty. -/
def CSndLossList.new (cap : Nat) : CSndLossList := ⟨cap, [], 0⟩

/-- Number of sequence numbers covered by one entry, via the signed modular
offset (spec: `tail − head + 1`). -/
def entrySize (e : LossEntry) : Int := seqoff e.1 e.2 + 1

/-- Modular sum of the sizes of all entries. -/
def sumSizes (es : List LossEntry) : Int := (es.map entrySize).sum

/-- Plain (in-window) sum of the sizes of all entries. -/
def sumSizesN (es : List LossEntry) : Nat :=
  (es.map (fun e => e.2 + 1 - e.1)).sum

/-- Head of the coalesced range: the head of the first merged range if it
is in the modular past of `lo`, else `lo`. -/
def mergeHead (merged : List LossEntry) (lo : Nat) : Nat :=
  match merged.head? with
  | some e => if seqlt e.1 lo then e.1 else lo
  | none => lo

/-- Tail of the coalesced range: the tail of the last merged range if it is
in the modular future of `hi`, else `hi`. -/
def mergeTail (merged : List LossEntry) (hi : Nat) : Nat :=
  match merged.getLast? with
  | some e => if seqlt hi e.2 then e.2 else hi
  | none => hi

/-- Modelled from the spec (§4.3 `insert`): locate the position of
`[lo, hi]` in the chain, merge every range that overlaps or is immediately
adjacent, insert the coalesced range, return the number of newly added
sequence numbers.  If inserting would push the stored-entry count above the
capacity, return 0 and do not mutate the state. -/
def CSndLossList.insert (st : CSndLossList) (lo hi : Nat) : Int × CSndLossList :=
  let before := st.entries.takeWhile fun e => seqlt (seqinc e.2) lo
  let rest := st.entries.dropWhile fun e => seqlt (seqinc e.2) lo
  let merged := rest.takeWhile fun e => seqle e.1 (seqinc hi)
  let after := rest.dropWhile fun e => seqle e.1 (seqinc hi)
  if st.capacity < before.length + 1 + after.length then
    (0, st)
  else
    let nh := mergeHead merged lo
    let nt := mergeTail merged hi
    let ret := entrySize (nh, nt) - sumSizes merged
    (ret, { st with entries := before ++ (nh, nt) :: after,
                    length := st.length + ret })

/-- Modelled from the spec (§4.3 `popLostSeq`): remove and return the
smallest sequence number; `-1` iff the list is empty; decrement `length`.
If the popped number was the sole element of its range the range is
unlinked, otherwise its head is advanced. -/
def CSndLossList.popLostSeq (st : CSndLossList) : Int × CSndLossList :=
  match st.entries with
  | [] => (-1, st)
  | (h, t) :: rest =>
    if h = t then
      ((h : Int), { st with entries := rest, length := st.length - 1 })
    else
      ((h : Int), { st with entries := (seqinc h, t) :: rest,
                            length := st.length - 1 })

/-- Modelled from the spec (§4.3 `remove`): walk the chain; unlink every
range entirely `≤ seq`, split a straddled range, stop at the first range in
the modular future of `seq`.  Returns the new chain and the number of
sequence numbers dropped. -/
def removeGo (seq : Nat) : List LossEntry → List LossEntry × Int
  | [] => ([], 0)
  | e :: rest =>
    if seqle e.2 seq then
      let (es, c) := removeGo seq rest
      (es, c + entrySize e)
    else if seqle e.1 seq then
      ((seqinc seq, e.2) :: rest, seqoff e.1 seq + 1)
    else (e :: rest, 0)

/-- Modelled from the spec (§4.3 `remove`): if `seq` is in the modular past
of the current head (negative offset, per the source note) the call is a
no-op; otherwise drop every sequence number `s ≤ seq` in modular order and
subtract the dropped count from `length`. -/
def CSndLossList.remove (st : CSndLossList) (seq : Nat) : CSndLossList :=
  match st.entries with
  | [] => st
  | e :: rest =>
    if seqle e.1 seq then
      let p := removeGo seq (e :: rest)
      { st with entries := p.1, length := st.length - p.2 }
    else st

/-- Modelled from the spec (§4.3): `getLossLength` returns the scalar
`length`. -/
def CSndLossList.getLossLength (st : CSndLossList) : Int := st.length

/-! ### Sanity checks against the unit tests of `test/test_list.cpp`

A few of the repository's enabled gtest scenarios, replayed on the model. -/

/-- `CSndLossListTest.InsertPopFourElems`: insert 1, 4, 0, 2; pop 0,1,2,4. -/
theorem model_matches_InsertPopFourElems :
    let s0 := CSndLossList.new 256
    let r1 := s0.insert 1 1
    let r2 := r1.2.insert 4 4
    let r3 := r2.2.insert 0 0
    let r4 := r3.2.insert 2 2
    r1.1 = 1 ∧ r2.1 = 1 ∧ r3.1 = 1 ∧ r4.1 = 1 ∧
    r4.2.getLossLength = 4 ∧
    (r4.2.popLostSeq.1 = 0 ∧ r4.2.popLostSeq.2.popLostSeq.1 = 1 ∧
      r4.2.popLostSeq.2.popLostSeq.2.popLostSeq.1 = 2 ∧
      r4.2.popLostSeq.2.popLostSeq.2.popLostSeq.2.popLostSeq.1 = 4 ∧
      r4.2.popLostSeq.2.popLostSeq.2.popLostSeq.2.popLostSeq.2.popLostSeq.1 = -1) := by
  decide

/-- `CSndLossListTest.BasicRemoveInListNotInNodeHead04`: insert (1,2), (4,8),
(10,12), remove(5), length 6, pops 6,7,8,10,11,12. -/
theorem model_matches_RemoveNotInNodeHead04 :
    let s0 := CSndLossList.new 256
    let s1 := (((s0.insert 1 2).2.insert 4 8).2.insert 10 12).2
    let s2 := s1.remove 5
    s1.getLossLength = 10 ∧ s2.getLossLength = 6 ∧
    s2.entries = [(6, 8), (10, 12)] := by
  decide

/-- `CSndLossListTest.BasicRemoveInListNotInNodeHead07`: `remove(-50)`
(which is `2^31 - 50` in the 31-bit space) is a no-op. -/
theorem model_matches_RemoveNegative :
    let s0 := CSndLossList.new 256
    let s1 := (((s0.insert 1 2).2.insert 4 8).2.insert 10 12).2
    s1.remove (2 ^ 31 - 50) = s1 := by
  decide

/-- `CSndLossListTest.InsertUpdateElement01`: insert (1,5), (1,8), then
(2,5) returns 0 and length stays 8. -/
theorem model_matches_InsertUpdateElement01 :
    let s0 := CSndLossList.new 256
    let s1 := ((s0.insert 1 5).2.insert 1 8).2
    s1.getLossLength = 8 ∧ s1.insert 2 5 = (0, s1) := by
  decide

/-! ### Well-formedness invariant (spec §3, "SLL invariants") -/

/-- One entry is well formed: `head ≤ tail` and the tail is inside the
normalised working window. -/
def entryOK (e : LossEntry) : Prop := e.1 ≤ e.2 ∧ e.2 < SEQ_B

instance : DecidablePred entryOK := fun e =>
  inferInstanceAs (Decidable (e.1 ≤ e.2 ∧ e.2 < SEQ_B))

/-- Two consecutive entries are disjoint and non-adjacent:
`tail + 1 < head` of the next (spec: otherwise they must have been
coalesced). -/
def entGap (a b : LossEntry) : Prop := a.2 + 2 ≤ b.1

instance : DecidableRel entGap := fun a b =>
  inferInstanceAs (Decidable (a.2 + 2 ≤ b.1))

/-- Executable check that consecutive entries are separated by a gap. -/
def chainOKB : List LossEntry → Bool
  | [] => true
  | [_] => true
  | a :: b :: rest => decide (a.2 + 2 ≤ b.1) && chainOKB (b :: rest)

theorem chainOKB_iff : ∀ l : List LossEntry, chainOKB l = true ↔ l.Chain' entGap
  | [] => by simp [chainOKB]
  | [a] => by simp [chainOKB]
  | a :: b :: rest => by
    rw [List.chain'_cons]
    simp only [chainOKB, Bool.and_eq_true, decide_eq_true_eq]
    rw [chainOKB_iff (b :: rest)]
    exact and_congr_left fun _ => Iff.rfl

/-- The chain of entries is well formed: every entry in the window with
`head ≤ tail`, strictly ascending and pairwise non-adjacent. -/
def wfEntries (es : List LossEntry) : Prop :=
  (∀ e ∈ es, entryOK e) ∧ es.Chain' entGap

instance : DecidablePred wfEntries := fun es =>
  decidable_of_iff ((∀ e ∈ es, entryOK e) ∧ chainOKB es = true)
    (and_congr Iff.rfl (chainOKB_iff es))

/-- The loss-list invariant: a well-formed chain, the scalar `length`
equal to the total number of covered sequence numbers, and no more stored
entries than the capacity. -/
def Inv (st : CSndLossList) : Prop :=
  wfEntries st.entries ∧ st.length = (sumSizesN st.entries : Int) ∧
    st.entries.length ≤ st.capacity

instance : DecidablePred Inv := fun st =>
  inferInstanceAs (Decidable (wfEntries st.entries ∧
    st.length = (sumSizesN st.entries : Int) ∧
    st.entries.length ≤ st.capacity))

/-- A valid argument range for `insert` in the normalised window
(spec §4.3: `seq_lo ≤ seq_hi` in modular order; behaviour on invalid
ranges is unspecified). -/
def validRange (lo hi : Nat) : Prop := lo ≤ hi ∧ hi < SEQ_B

instance : Decidable (validRange lo hi) :=
  inferInstanceAs (Decidable (lo ≤ hi ∧ hi < SEQ_B))

theorem wfEntries_nil : wfEntries [] := by constructor <;> simp

theorem wfEntries_tail {e : LossEntry} {rest : List LossEntry}
    (h : wfEntries (e :: rest)) : wfEntries rest := by
  obtain ⟨hok, hch⟩ := h
  exact ⟨fun x hx => hok x (List.mem_cons_of_mem _ hx), (List.chain'_cons'.mp hch).2⟩

theorem wf_rest_heads {e : LossEntry} {rest : List LossEntry}
    (h : wfEntries (e :: rest)) : ∀ e' ∈ rest, e.2 + 2 ≤ e'.1 := by
  induction rest generalizing e with
  | nil => intro e' he'; cases he'
  | cons f rest' ih =>
    intro e' he'
    obtain ⟨hok, hch⟩ := h
    have hef : entGap e f := (List.chain'_cons.mp hch).1
    have hef2 : e.2 + 2 ≤ f.1 := hef
    rcases List.mem_cons.mp he' with rfl | he''
    · exact hef2
    · have hwf' : wfEntries (f :: rest') :=
        ⟨fun x hx => hok x (List.mem_cons_of_mem _ hx), (List.chain'_cons.mp hch).2⟩
      have := ih hwf' e' he''
      have hfok : entryOK f := hok f (by simp)
      have : f.1 ≤ f.2 := hfok.1
      omega

theorem wf_head_min {e : LossEntry} {rest : List LossEntry}
    (h : wfEntries (e :: rest)) : ∀ e' ∈ e :: rest, e.1 ≤ e'.1 := by
  intro e' he'
  rcases List.mem_cons.mp he' with rfl | he''
  · exact le_refl _
  · have h1 := wf_rest_heads h e' he''
    have h2 : e.1 ≤ e.2 := (h.1 e (by simp)).1
    omega

theorem getLast?_mem_self {α : Type _} {l : List α} {m : α}
    (h : l.getLast? = some m) : m ∈ l := by
  obtain ⟨hne, heq⟩ :=
    @List.mem_getLast?_eq_getLast _ l m (Option.mem_def.mpr h)
  subst heq; exact List.getLast_mem hne

theorem wf_last_max {es : List LossEntry} (h : wfEntries es) :
    ∀ m, es.getLast? = some m → ∀ e ∈ es, e.2 ≤ m.2 := by
  induction es with
  | nil => intro m hm; cases hm
  | cons f rest ih =>
    intro m hm e he
    cases rest with
    | nil =>
      simp at hm
      rcases List.mem_singleton.mp he with rfl
      subst hm; exact le_refl _
    | cons g rest' =>
      have hm' : (g :: rest').getLast? = some m := by
        rw [List.getLast?_cons_cons] at hm; exact hm
      have hwf' : wfEntries (g :: rest') := wfEntries_tail h
      rcases List.mem_cons.mp he with rfl | he''
      · have hmem : m ∈ g :: rest' := getLast?_mem_self hm'
        have h1 := wf_rest_heads h m hmem
        have h2 : m.1 ≤ m.2 := (hwf'.1 m hmem).1
        omega
      · exact ih hwf' m hm' e he''

/-! ### The set of lost sequence numbers -/

/-- The finite set of individual lost sequence numbers recorded in the
chain. -/
def lossSet (es : List LossEntry) : Finset Nat :=
  es.foldr (fun e acc => Finset.Icc e.1 e.2 ∪ acc) ∅

@[simp] theorem lossSet_nil : lossSet [] = ∅ := rfl

@[simp] theorem lossSet_cons (e : LossEntry) (es : List LossEntry) :
    lossSet (e :: es) = Finset.Icc e.1 e.2 ∪ lossSet es := rfl

theorem lossSet_append (a b : List LossEntry) :
    lossSet (a ++ b) = lossSet a ∪ lossSet b := by
  induction a with
  | nil => simp
  | cons e a' ih => simp [ih, Finset.union_assoc]

theorem mem_lossSet {x : Nat} {es : List LossEntry} :
    x ∈ lossSet es ↔ ∃ e ∈ es, e.1 ≤ x ∧ x ≤ e.2 := by
  induction es with
  | nil => simp
  | cons e es' ih =>
    simp [Finset.mem_union, Finset.mem_Icc, ih]

theorem lossSet_lt_B {x : Nat} {es : List LossEntry} (h : wfEntries es)
    (hx : x ∈ lossSet es) : x < SEQ_B := by
  obtain ⟨e, he, _, h2⟩ := mem_lossSet.mp hx
  have := (h.1 e he).2
  omega

theorem lossSet_lower {e : LossEntry} {rest : List LossEntry}
    (h : wfEntries (e :: rest)) {x : Nat} (hx : x ∈ lossSet rest) :
    e.2 + 2 ≤ x := by
  obtain ⟨e', he', h1, _⟩ := mem_lossSet.mp hx
  have := wf_rest_heads h e' he'
  omega

/-- On a well-formed chain, the total of the entry sizes is the number of
distinct lost sequence numbers. -/
theorem card_lossSet {es : List LossEntry} (h : wfEntries es) :
    (lossSet es).card = sumSizesN es := by
  induction es with
  | nil => simp [sumSizesN]
  | cons e rest ih =>
    have hd : Disjoint (Finset.Icc e.1 e.2) (lossSet rest) := by
      rw [Finset.disjoint_left]
      intro x hx hx'
      have h1 := (Finset.mem_Icc.mp hx).2
      have h2 := lossSet_lower h hx'
      omega
    rw [lossSet_cons, Finset.card_union_of_disjoint hd, ih (wfEntries_tail h)]
    simp [sumSizesN, Nat.card_Icc]

/-! ### `insert` in plain arithmetic

On well-formed windowed states every modular comparison that `insert` makes
coincides with the plain order on `Nat`; `insertP` is `insert` with those
comparisons rewritten, and `insert_eq_plain` is the bridge. -/

theorem takeWhile_congr {α : Type _} {p q : α → Bool} :
    ∀ (l : List α), (∀ a ∈ l, p a = q a) → l.takeWhile p = l.takeWhile q
  | [], _ => rfl
  | a :: l, h => by
    simp only [List.takeWhile_cons, h a (by simp)]
    split
    · rw [takeWhile_congr l fun x hx => h x (by simp [hx])]
    · rfl

theorem dropWhile_congr {α : Type _} {p q : α → Bool} :
    ∀ (l : List α), (∀ a ∈ l, p a = q a) → l.dropWhile p = l.dropWhile q
  | [], _ => rfl
  | a :: l, h => by
    simp only [List.dropWhile_cons, h a (by simp)]
    split
    · exact dropWhile_congr l fun x hx => h x (by simp [hx])
    · rfl

/-- Head of the coalesced range, in plain arithmetic. -/
def mergeHeadP (merged : List LossEntry) (lo : Nat) : Nat :=
  match merged.head? with
  | some e => min e.1 lo
  | none => lo

/-- Tail of the coalesced range, in plain arithmetic. -/
def mergeTailP (merged : List LossEntry) (hi : Nat) : Nat :=
  match merged.getLast? with
  | some e => max e.2 hi
  | none => hi

/-- `insert`, with every modular comparison replaced by the plain one. -/
def insertP (st : CSndLossList) (lo hi : Nat) : Int × CSndLossList :=
  let before := st.entries.takeWhile fun e => decide (e.2 + 1 < lo)
  let rest := st.entries.dropWhile fun e => decide (e.2 + 1 < lo)
  let merged := rest.takeWhile fun e => decide (e.1 ≤ hi + 1)
  let after := rest.dropWhile fun e => decide (e.1 ≤ hi + 1)
  if st.capacity < before.length + 1 + after.length then
    (0, st)
  else
    let nh := mergeHeadP merged lo
    let nt := mergeTailP merged hi
    let ret : Int := ((nt + 1 - nh : Nat) : Int) - (sumSizesN merged : Int)
    (ret, { st with entries := before ++ (nh, nt) :: after,
                    length := st.length + ret })

theorem SEQ_B_lt_HALF : SEQ_B < SEQ_HALF := by simp [SEQ_B, SEQ_HALF]

theorem mergeHeadP_le (m : List LossEntry) (lo : Nat) : mergeHeadP m lo ≤ lo := by
  unfold mergeHeadP
  cases m.head? with
  | none => exact le_refl _
  | some e => exact min_le_right _ _

theorem le_mergeTailP (m : List LossEntry) (hi : Nat) : hi ≤ mergeTailP m hi := by
  unfold mergeTailP
  cases m.getLast? with
  | none => exact le_refl _
  | some e => exact le_max_right _ _

theorem mergeTailP_lt (m : List LossEntry) (hi : Nat)
    (hm : ∀ e ∈ m, e.2 < SEQ_B) (hh : hi < SEQ_B) : mergeTailP m hi < SEQ_B := by
  unfold mergeTailP
  cases hl : m.getLast? with
  | none => exact hh
  | some e =>
    have := hm e (getLast?_mem_self hl)
    simp only [max_lt_iff]
    exact ⟨this, hh⟩

theorem mergeHead_eq (m : List LossEntry) (lo : Nat)
    (hm : ∀ e ∈ m, e.1 < SEQ_HALF) (hlo : lo < SEQ_HALF) :
    mergeHead m lo = mergeHeadP m lo := by
  unfold mergeHead mergeHeadP
  cases hh : m.head? with
  | none => rfl
  | some e =>
    have he : e ∈ m := by
      cases m with
      | nil => cases hh
      | cons a l =>
        simp only [List.head?_cons, Option.some.injEq] at hh
        simp [← hh]
    have h1 := hm e he
    show (if seqlt e.1 lo = true then e.1 else lo) = min e.1 lo
    rw [seqlt_eq h1 hlo]
    rcases Nat.lt_or_ge e.1 lo with hc | hc
    · rw [if_pos (by simpa using hc)]; omega
    · rw [if_neg (by simpa using hc)]; omega

theorem mergeTail_eq (m : List LossEntry) (hi : Nat)
    (hm : ∀ e ∈ m, e.2 < SEQ_HALF) (hhi : hi < SEQ_HALF) :
    mergeTail m hi = mergeTailP m hi := by
  unfold mergeTail mergeTailP
  cases hh : m.getLast? with
  | none => rfl
  | some e =>
    have he : e ∈ m := getLast?_mem_self hh
    have h2 := hm e he
    show (if seqlt hi e.2 = true then e.2 else hi) = max e.2 hi
    rw [seqlt_eq hhi h2]
    rcases Nat.lt_or_ge hi e.2 with hc | hc
    · rw [if_pos (by simpa using hc)]; omega
    · rw [if_neg (by simpa using hc)]; omega

theorem entrySize_eq {a b : Nat} (ha : a < SEQ_HALF) (hb : b < SEQ_HALF) :
    entrySize (a, b) = (b : Int) - (a : Int) + 1 := by
  simp [entrySize, seqoff_eq ha hb]

theorem sumSizes_eq {es : List LossEntry} (h : ∀ e ∈ es, entryOK e) :
    sumSizes es = (sumSizesN es : Int) := by
  induction es with
  | nil => simp [sumSizes, sumSizesN]
  | cons e rest ih =>
    have hok := h e (by simp)
    have h1 : e.1 < SEQ_HALF := by
      have := SEQ_B_lt_HALF; obtain ⟨ha, hb⟩ := hok; omega
    have h2 : e.2 < SEQ_HALF := by
      have := SEQ_B_lt_HALF; exact lt_trans hok.2 this
    have := ih fun x hx => h x (List.mem_cons_of_mem _ hx)
    simp only [sumSizes, sumSizesN, List.map_cons, List.sum_cons] at *
    rw [this]
    have : entrySize e = (e.2 : Int) - e.1 + 1 := entrySize_eq h1 h2
    rw [this]
    have hab : e.1 ≤ e.2 := hok.1
    push_cast
    omega

theorem insert_eq_plain (st : CSndLossList) (lo hi : Nat)
    (hwf : wfEntries st.entries) (hv : validRange lo hi) :
    st.insert lo hi = insertP st lo hi := by
  obtain ⟨hlh, hhiB⟩ := hv
  have hBH := SEQ_B_lt_HALF
  have hloH : lo < SEQ_HALF := by omega
  have hhi1H : hi + 1 < SEQ_HALF := by
    have : SEQ_B + 1 ≤ SEQ_HALF := by simp [SEQ_B, SEQ_HALF]
    omega
  have hE2 : ∀ e ∈ st.entries, e.2 + 1 < SEQ_HALF := by
    intro e he
    have := (hwf.1 e he).2
    have : SEQ_B + 1 ≤ SEQ_HALF := by simp [SEQ_B, SEQ_HALF]
    omega
  have hE1 : ∀ e ∈ st.entries, e.1 < SEQ_HALF := by
    intro e he
    have h1 := (hwf.1 e he).1
    have h2 := hE2 e he
    omega
  have hpB : ∀ e ∈ st.entries,
      (seqlt (seqinc e.2) lo) = decide (e.2 + 1 < lo) := by
    intro e he
    have hb := hE2 e he
    rw [seqinc_eq (by have := (hwf.1 e he).2; omega), seqlt_eq hb hloH]
  have hpM : ∀ e ∈ st.entries,
      (seqle e.1 (seqinc hi)) = decide (e.1 ≤ hi + 1) := by
    intro e he
    have h1 := hE1 e he
    rw [seqinc_eq (by omega), seqle_eq h1 hhi1H]
  unfold CSndLossList.insert insertP
  simp only []
  rw [takeWhile_congr st.entries hpB, dropWhile_congr st.entries hpB]
  rw [takeWhile_congr _ fun e he =>
        hpM e ((List.dropWhile_sublist _).mem he),
      dropWhile_congr _ fun e he =>
        hpM e ((List.dropWhile_sublist _).mem he)]
  set M := (st.entries.dropWhile fun e => decide (e.2 + 1 < lo)).takeWhile
      fun e => decide (e.1 ≤ hi + 1) with hMdef
  have hMmem : ∀ e ∈ M, e ∈ st.entries := fun e he =>
    (List.dropWhile_sublist _).mem ((List.takeWhile_sublist _).mem he)
  have hMok : ∀ e ∈ M, entryOK e := fun e he => hwf.1 e (hMmem e he)
  rw [mergeHead_eq M lo (fun e he => hE1 e (hMmem e he)) hloH,
      mergeTail_eq M hi (fun e he => by have := hE2 e (hMmem e he); omega)
        (by omega)]
  have hnhH : mergeHeadP M lo < SEQ_HALF :=
    lt_of_le_of_lt (mergeHeadP_le M lo) hloH
  have hntH : mergeTailP M hi < SEQ_HALF := by
    have := mergeTailP_lt M hi (fun e he => (hMok e he).2) hhiB
    omega
  have hnhnt : mergeHeadP M lo ≤ mergeTailP M hi :=
    le_trans (mergeHeadP_le M lo) (le_trans hlh (le_mergeTailP M hi))
  have hret : entrySize (mergeHeadP M lo, mergeTailP M hi) - sumSizes M =
      ((mergeTailP M hi + 1 - mergeHeadP M lo : Nat) : Int) -
        (sumSizesN M : Int) := by
    rw [entrySize_eq hnhH hntH, sumSizes_eq hMok]
    have := hnhnt
    omega
  rw [hret]

/-! ### Partition analysis of `insertP` -/

/-- Entries strictly before the inserted range (not even adjacent). -/
def partB (lo : Nat) (es : List LossEntry) : List LossEntry :=
  es.takeWhile fun e => decide (e.2 + 1 < lo)

/-- Entries from the first candidate for merging onwards. -/
def partR (lo : Nat) (es : List LossEntry) : List LossEntry :=
  es.dropWhile fun e => decide (e.2 + 1 < lo)

/-- The block of entries that get merged into the inserted range. -/
def partM (lo hi : Nat) (es : List LossEntry) : List LossEntry :=
  (partR lo es).takeWhile fun e => decide (e.1 ≤ hi + 1)

/-- Entries strictly after the inserted range. -/
def partA (lo hi : Nat) (es : List LossEntry) : List LossEntry :=
  (partR lo es).dropWhile fun e => decide (e.1 ≤ hi + 1)

theorem insertP_eq (st : CSndLossList) (lo hi : Nat) :
    insertP st lo hi =
      if st.capacity < (partB lo st.entries).length + 1 +
          (partA lo hi st.entries).length then (0, st)
      else
        let nh := mergeHeadP (partM lo hi st.entries) lo
        let nt := mergeTailP (partM lo hi st.entries) hi
        let ret : Int := ((nt + 1 - nh : Nat) : Int) -
          (sumSizesN (partM lo hi st.entries) : Int)
        (ret, ⟨st.capacity,
               partB lo st.entries ++ (nh, nt) :: partA lo hi st.entries,
               st.length + ret⟩) := rfl

theorem parts_decomp (lo hi : Nat) (es : List LossEntry) :
    es = partB lo es ++ (partM lo hi es ++ partA lo hi es) ∧
      partR lo es = partM lo hi es ++ partA lo hi es := by
  have h2 : partM lo hi es ++ partA lo hi es = partR lo es :=
    List.takeWhile_append_dropWhile _ _
  constructor
  · rw [h2]
    exact (List.takeWhile_append_dropWhile _ _).symm
  · exact h2.symm

theorem partB_mem {lo : Nat} {es : List LossEntry} {e : LossEntry}
    (h : e ∈ partB lo es) : e.2 + 1 < lo := by
  have := List.mem_takeWhile_imp h
  simpa using this

theorem partM_mem {lo hi : Nat} {es : List LossEntry} {e : LossEntry}
    (h : e ∈ partM lo hi es) : e.1 ≤ hi + 1 := by
  have := List.mem_takeWhile_imp h
  simpa using this

theorem takeWhile_head?_eq {α : Type _} {p : α → Bool} {l : List α} {x : α}
    (h : (l.takeWhile p).head? = some x) : l.head? = some x := by
  cases l with
  | nil => simp [List.takeWhile] at h
  | cons a l' =>
    rw [List.takeWhile_cons] at h
    split at h
    · simpa using h
    · simp at h

theorem partM_head_tail {lo hi : Nat} {es : List LossEntry} {e : LossEntry}
    (h : (partM lo hi es).head? = some e) : lo ≤ e.2 + 1 := by
  have hR : (partR lo es).head? = some e := takeWhile_head?_eq h
  have := List.head?_dropWhile_not (fun e => decide (e.2 + 1 < lo)) es
  rw [show es.dropWhile (fun e => decide (e.2 + 1 < lo)) = partR lo es from rfl,
    hR] at this
  simpa using this

theorem partA_head {lo hi : Nat} {es : List LossEntry} {a : LossEntry}
    (h : (partA lo hi es).head? = some a) : hi + 1 < a.1 := by
  have := List.head?_dropWhile_not (fun e => decide (e.1 ≤ hi + 1)) (partR lo es)
  rw [show (partR lo es).dropWhile (fun e => decide (e.1 ≤ hi + 1)) =
      partA lo hi es from rfl, h] at this
  simpa using this

/-- Decomposition of the well-formedness invariant along the partition. -/
theorem wf_parts {lo hi : Nat} {es : List LossEntry} (hwf : wfEntries es) :
    wfEntries (partB lo es) ∧ wfEntries (partM lo hi es) ∧
      wfEntries (partA lo hi es) ∧
      (∀ b ∈ (partB lo es).getLast?, ∀ x ∈ (partM lo hi es ++ partA lo hi es).head?,
        b.2 + 2 ≤ x.1) ∧
      (∀ m ∈ (partM lo hi es).getLast?, ∀ a ∈ (partA lo hi es).head?,
        m.2 + 2 ≤ a.1) := by
  obtain ⟨hok, hch⟩ := hwf
  obtain ⟨hdec, -⟩ := parts_decomp lo hi es
  rw [hdec] at hch
  rw [List.chain'_append] at hch
  obtain ⟨chB, chMA, jB⟩ := hch
  have chMA' := chMA
  rw [List.chain'_append] at chMA'
  obtain ⟨chM, chA, jM⟩ := chMA'
  have hmemB : ∀ e ∈ partB lo es, e ∈ es := by
    intro e he; rw [hdec]; exact List.mem_append_left _ he
  have hmemM : ∀ e ∈ partM lo hi es, e ∈ es := by
    intro e he; rw [hdec]
    exact List.mem_append_right _ (List.mem_append_left _ he)
  have hmemA : ∀ e ∈ partA lo hi es, e ∈ es := by
    intro e he; rw [hdec]
    exact List.mem_append_right _ (List.mem_append_right _ he)
  exact ⟨⟨fun e he => hok e (hmemB e he), chB⟩,
    ⟨fun e he => hok e (hmemM e he), chM⟩,
    ⟨fun e he => hok e (hmemA e he), chA⟩,
    jB, jM⟩

theorem sumSizesN_append (a b : List LossEntry) :
    sumSizesN (a ++ b) = sumSizesN a + sumSizesN b := by
  simp [sumSizesN]

theorem sumSizesN_cons (e : LossEntry) (es : List LossEntry) :
    sumSizesN (e :: es) = (e.2 + 1 - e.1) + sumSizesN es := by
  simp [sumSizesN]

/-- Junction between the `before` block and the coalesced entry. -/
theorem junction_left {lo hi : Nat} {es : List LossEntry} (hwf : wfEntries es) :
    ∀ b ∈ (partB lo es).getLast?, b.2 + 2 ≤ mergeHeadP (partM lo hi es) lo := by
  intro b hb
  obtain ⟨-, -, -, jB, -⟩ := @wf_parts lo hi es hwf
  have hbB : b ∈ partB lo es := getLast?_mem_self (Option.mem_def.mp hb)
  have hblo : b.2 + 1 < lo := partB_mem hbB
  unfold mergeHeadP
  cases hM : (partM lo hi es).head? with
  | none =>
    show b.2 + 2 ≤ lo
    omega
  | some e1 =>
    have hMA : (partM lo hi es ++ partA lo hi es).head? = some e1 := by
      cases hMl : partM lo hi es with
      | nil => rw [hMl] at hM; cases hM
      | cons x l =>
        rw [hMl] at hM
        simp only [List.head?_cons, Option.some.injEq] at hM
        simp [hMl, hM]
    have := jB b hb e1 (Option.mem_def.mpr hMA)
    show b.2 + 2 ≤ min e1.1 lo
    omega

/-- Junction between the coalesced entry and the `after` block. -/
theorem junction_right {lo hi : Nat} {es : List LossEntry} (hwf : wfEntries es) :
    ∀ a ∈ (partA lo hi es).head?, mergeTailP (partM lo hi es) hi + 2 ≤ a.1 := by
  intro a ha
  obtain ⟨-, -, -, -, jM⟩ := @wf_parts lo hi es hwf
  have haA : hi + 1 < a.1 := partA_head (Option.mem_def.mp ha)
  unfold mergeTailP
  cases hM : (partM lo hi es).getLast? with
  | none =>
    show hi + 2 ≤ a.1
    omega
  | some m =>
    have := jM m (Option.mem_def.mpr hM) a ha
    show max m.2 hi + 2 ≤ a.1
    omega

/-- The coalesced entry is well formed. -/
theorem newEntry_ok {lo hi : Nat} {es : List LossEntry} (hwf : wfEntries es)
    (hv : validRange lo hi) :
    entryOK (mergeHeadP (partM lo hi es) lo, mergeTailP (partM lo hi es) hi) := by
  obtain ⟨hlh, hhiB⟩ := hv
  obtain ⟨-, hwfM, -, -, -⟩ := @wf_parts lo hi es hwf
  constructor
  · exact le_trans (mergeHeadP_le _ lo)
      (le_trans hlh (le_mergeTailP _ hi))
  · exact mergeTailP_lt _ hi (fun e he => (hwfM.1 e he).2) hhiB

/-- The chain produced by a non-rejected `insert` is well formed. -/
theorem insertP_wf {lo hi : Nat} {es : List LossEntry} (hwf : wfEntries es)
    (hv : validRange lo hi) :
    wfEntries (partB lo es ++
      (mergeHeadP (partM lo hi es) lo, mergeTailP (partM lo hi es) hi) ::
      partA lo hi es) := by
  obtain ⟨hwfB, hwfM, hwfA, -, -⟩ := @wf_parts lo hi es hwf
  constructor
  · intro e he
    rcases List.mem_append.mp he with h | h
    · exact hwfB.1 e h
    · rcases List.mem_cons.mp h with rfl | h'
      · exact newEntry_ok hwf hv
      · exact hwfA.1 e h'
  · rw [List.chain'_append]
    refine ⟨hwfB.2, ?_, ?_⟩
    · rw [List.chain'_cons']
      exact ⟨fun a ha => junction_right hwf a ha, hwfA.2⟩
    · intro b hb y hy
      simp only [List.head?_cons, Option.mem_def, Option.some.injEq] at hy
      subst hy
      exact junction_left hwf b hb

/-- `insert` preserves the loss-list invariant. -/
theorem insert_preserves (st : CSndLossList) (lo hi : Nat)
    (hInv : Inv st) (hv : validRange lo hi) : Inv (st.insert lo hi).2 := by
  obtain ⟨hwf, hlen, hcap⟩ := hInv
  rw [insert_eq_plain st lo hi hwf hv, insertP_eq]
  split
  · exact ⟨hwf, hlen, hcap⟩
  · rename_i hguard
    push_neg at hguard
    constructor
    · exact insertP_wf hwf hv
    constructor
    · -- length bookkeeping
      simp only [CSndLossList.getLossLength]
      obtain ⟨hdec, -⟩ := parts_decomp lo hi st.entries
      have hsum : sumSizesN st.entries =
          sumSizesN (partB lo st.entries) + sumSizesN (partM lo hi st.entries)
            + sumSizesN (partA lo hi st.entries) := by
        conv_lhs => rw [hdec]
        rw [sumSizesN_append, sumSizesN_append]
        omega
      have hok := newEntry_ok hwf hv
      have hnhnt := hok.1
      rw [sumSizesN_append, sumSizesN_cons]
      rw [hlen]
      have h1 : (mergeHeadP (partM lo hi st.entries) lo) ≤
          mergeTailP (partM lo hi st.entries) hi := hnhnt
      omega
    · simp only [List.length_append, List.length_cons]
      omega

/-- Every entry of the `after` block lies entirely above `hi + 1`. -/
theorem partA_mem_head {lo hi : Nat} {es : List LossEntry} (hwf : wfEntries es) :
    ∀ e ∈ partA lo hi es, hi + 1 < e.1 := by
  obtain ⟨-, -, hwfA, -, -⟩ := @wf_parts lo hi es hwf
  intro e he
  cases hA : partA lo hi es with
  | nil => rw [hA] at he; cases he
  | cons a0 t =>
    have h0 : hi + 1 < a0.1 := partA_head (by rw [hA]; rfl)
    rw [hA] at he hwfA
    have := wf_head_min hwfA e he
    omega

/-- The coalesced range covers exactly the inserted range together with the
merged entries. -/
theorem Icc_decomp {lo hi : Nat} {es : List LossEntry} (hwf : wfEntries es)
    (hv : validRange lo hi) :
    Finset.Icc (mergeHeadP (partM lo hi es) lo) (mergeTailP (partM lo hi es) hi) =
      Finset.Icc lo hi ∪ lossSet (partM lo hi es) := by
  obtain ⟨hlh, hhiB⟩ := hv
  obtain ⟨-, hwfM, -, -, -⟩ := @wf_parts lo hi es hwf
  ext x
  simp only [Finset.mem_union, Finset.mem_Icc, mem_lossSet]
  constructor
  · rintro ⟨hx1, hx2⟩
    by_cases hxlo : x < lo
    · right
      cases hM : (partM lo hi es).head? with
      | none =>
        exfalso
        have : mergeHeadP (partM lo hi es) lo = lo := by
          unfold mergeHeadP; rw [hM]
        omega
      | some e1 =>
        have he1 : e1 ∈ partM lo hi es := by
          cases hMl : partM lo hi es with
          | nil => rw [hMl] at hM; cases hM
          | cons y l =>
            rw [hMl] at hM
            simp only [List.head?_cons, Option.some.injEq] at hM
            simp [hMl, ← hM]
        have hnh : mergeHeadP (partM lo hi es) lo = min e1.1 lo := by
          unfold mergeHeadP; rw [hM]
        have htl : lo ≤ e1.2 + 1 := partM_head_tail hM
        exact ⟨e1, he1, by omega, by omega⟩
    · by_cases hxhi : x ≤ hi
      · exact Or.inl ⟨by omega, hxhi⟩
      · right
        cases hM : (partM lo hi es).getLast? with
        | none =>
          exfalso
          have : mergeTailP (partM lo hi es) hi = hi := by
            unfold mergeTailP; rw [hM]
          omega
        | some m =>
          have hm : m ∈ partM lo hi es := getLast?_mem_self hM
          have hnt : mergeTailP (partM lo hi es) hi = max m.2 hi := by
            unfold mergeTailP; rw [hM]
          have hm1 : m.1 ≤ hi + 1 := partM_mem hm
          exact ⟨m, hm, by omega, by omega⟩
  · rintro (⟨h1, h2⟩ | ⟨e, he, h1, h2⟩)
    · have := mergeHeadP_le (partM lo hi es) lo
      have := le_mergeTailP (partM lo hi es) hi
      omega
    · cases hMl : partM lo hi es with
      | nil => rw [hMl] at he; cases he
      | cons e1 t =>
        rw [hMl] at hwfM he
        have hhead := wf_head_min hwfM e he
        have hnh : mergeHeadP (e1 :: t) lo ≤ e1.1 := by
          unfold mergeHeadP
          simp only [List.head?_cons]
          show min e1.1 lo ≤ e1.1
          omega
        have hlast : ∃ m, (e1 :: t).getLast? = some m := by
          cases t with
          | nil => exact ⟨e1, rfl⟩
          | cons y l => exact ⟨(y :: l).getLast (by simp),
              by rw [List.getLast?_cons_cons]
                 exact List.getLast?_eq_getLast_of_ne_nil (by simp)⟩
        obtain ⟨m, hm⟩ := hlast
        have hle := wf_last_max hwfM m hm e he
        have hnt : m.2 ≤ mergeTailP (e1 :: t) hi := by
          unfold mergeTailP
          rw [hm]
          show m.2 ≤ max m.2 hi
          omega
        omega

/-- The loss set after a non-rejected `insert` is the old set united with
the inserted range. -/
theorem insertP_lossSet {st : CSndLossList} {lo hi : Nat}
    (hwf : wfEntries st.entries) (hv : validRange lo hi)
    (hng : ¬ st.capacity < (partB lo st.entries).length + 1 +
      (partA lo hi st.entries).length) :
    lossSet (insertP st lo hi).2.entries = lossSet st.entries ∪ Finset.Icc lo hi := by
  rw [insertP_eq, if_neg hng]
  simp only []
  rw [lossSet_append, lossSet_cons, Icc_decomp hwf hv]
  obtain ⟨hdec, -⟩ := parts_decomp lo hi st.entries
  conv_rhs => rw [hdec]
  rw [lossSet_append, lossSet_append]
  ext x
  simp only [Finset.mem_union]
  tauto

/-- The value returned by a non-rejected `insert` counts exactly the
sequence numbers of `[lo, hi]` that were not yet recorded. -/
theorem insertP_ret_card {st : CSndLossList} {lo hi : Nat}
    (hwf : wfEntries st.entries) (hv : validRange lo hi)
    (hng : ¬ st.capacity < (partB lo st.entries).length + 1 +
      (partA lo hi st.entries).length) :
    (insertP st lo hi).1 =
      (((Finset.Icc lo hi) \ lossSet st.entries).card : Int) := by
  obtain ⟨-, hwfM, -, -, -⟩ := @wf_parts lo hi st.entries hwf
  -- the inserted range meets neither the `before` nor the `after` block
  have hIS : Finset.Icc lo hi \ lossSet st.entries =
      Finset.Icc lo hi \ lossSet (partM lo hi st.entries) := by
    obtain ⟨hdec, -⟩ := parts_decomp lo hi st.entries
    ext x
    conv_lhs => rw [hdec]
    simp only [Finset.mem_sdiff, Finset.mem_Icc, lossSet_append,
      Finset.mem_union, mem_lossSet]
    constructor
    · rintro ⟨⟨h1, h2⟩, h3⟩
      exact ⟨⟨h1, h2⟩, fun ⟨e, he, he1, he2⟩ => h3 (Or.inr (Or.inl ⟨e, he, he1, he2⟩))⟩
    · rintro ⟨⟨h1, h2⟩, h3⟩
      refine ⟨⟨h1, h2⟩, ?_⟩
      rintro (⟨e, he, he1, he2⟩ | ⟨e, he, he1, he2⟩ | ⟨e, he, he1, he2⟩)
      · have := partB_mem he
        omega
      · exact h3 ⟨e, he, he1, he2⟩
      · have := partA_mem_head hwf e he
        omega
  have hICC := @Icc_decomp lo hi st.entries hwf hv
  have hok := newEntry_ok hwf hv
  have hcard1 : (Finset.Icc lo hi ∪ lossSet (partM lo hi st.entries)).card =
      mergeTailP (partM lo hi st.entries) hi + 1 -
        mergeHeadP (partM lo hi st.entries) lo := by
    rw [← hICC, Nat.card_Icc]
  have hcard2 : (lossSet (partM lo hi st.entries)).card =
      sumSizesN (partM lo hi st.entries) := card_lossSet hwfM
  have hsplit : (Finset.Icc lo hi ∪ lossSet (partM lo hi st.entries)).card =
      (lossSet (partM lo hi st.entries)).card +
        (Finset.Icc lo hi \ lossSet (partM lo hi st.entries)).card := by
    rw [Finset.union_comm]
    rw [← Finset.union_sdiff_self_eq_union]
    exact Finset.card_union_of_disjoint Finset.disjoint_sdiff
  rw [insertP_eq, if_neg hng]
  simp only []
  rw [hIS]
  have hnhnt := hok.1
  omega

/-- The capacity guard cannot fire when there is room for one more entry. -/
theorem no_guard_of_room {st : CSndLossList} {lo hi : Nat}
    (hroom : st.entries.length < st.capacity) :
    ¬ st.capacity < (partB lo st.entries).length + 1 +
      (partA lo hi st.entries).length := by
  obtain ⟨hdec, -⟩ := parts_decomp lo hi st.entries
  have : st.entries.length = (partB lo st.entries).length +
      ((partM lo hi st.entries).length + (partA lo hi st.entries).length) := by
    conv_lhs => rw [hdec]
    simp
  omega

/-- The capacity guard cannot fire when at least one entry is merged. -/
theorem no_guard_of_merged {st : CSndLossList} {lo hi : Nat}
    (hcap : st.entries.length ≤ st.capacity)
    (hm : partM lo hi st.entries ≠ []) :
    ¬ st.capacity < (partB lo st.entries).length + 1 +
      (partA lo hi st.entries).length := by
  obtain ⟨hdec, -⟩ := parts_decomp lo hi st.entries
  have h1 : st.entries.length = (partB lo st.entries).length +
      ((partM lo hi st.entries).length + (partA lo hi st.entries).length) := by
    conv_lhs => rw [hdec]
    simp
  have h2 : 1 ≤ (partM lo hi st.entries).length :=
    List.length_pos.mpr hm
  omega

/-! ### `remove` analysis -/

/-- For a well-formed entry, the split branch of `removeGo` can only be
taken when `seq` lies in the near half-window. -/
theorem split_in_window {e : LossEntry} {seq : Nat} (hok : entryOK e)
    (hseq : seq < SEQ_MOD) (h2 : ¬ seqle e.2 seq = true)
    (h1 : seqle e.1 seq = true) : seq < SEQ_HALF := by
  by_contra hge
  push_neg at hge
  have hBH := SEQ_B_lt_HALF
  obtain ⟨hok1, hok2⟩ := hok
  have he2H : e.2 < SEQ_HALF := by omega
  have he1H : e.1 < SEQ_HALF := by omega
  have hf2 := seqle_far he2H hge hseq
  have hf1 := seqle_far he1H hge hseq
  have hA : seq - e.1 < SEQ_HALF := hf1.mp h1
  have hB : ¬ (seq - e.2 < SEQ_HALF) := fun hc => h2 (hf2.mpr hc)
  omega

/-- `removeGo` preserves well-formedness, does not lengthen the chain, and
reports exactly the number of sequence numbers it dropped. -/
theorem removeGo_wf {seq : Nat} (hseq : seq < SEQ_MOD) :
    ∀ {es : List LossEntry}, wfEntries es →
      wfEntries (removeGo seq es).1 ∧
      (removeGo seq es).1.length ≤ es.length ∧
      (removeGo seq es).2 =
        (sumSizesN es : Int) - (sumSizesN (removeGo seq es).1 : Int) ∧
      sumSizesN (removeGo seq es).1 ≤ sumSizesN es := by
  intro es
  induction es with
  | nil =>
    intro _
    refine ⟨wfEntries_nil, le_refl _, ?_, le_refl _⟩
    simp [removeGo]
  | cons e rest ih =>
    intro hwf
    have hok : entryOK e := hwf.1 e (by simp)
    have hBH := SEQ_B_lt_HALF
    have he1H : e.1 < SEQ_HALF := by obtain ⟨a, b⟩ := hok; omega
    have he2H : e.2 < SEQ_HALF := by obtain ⟨a, b⟩ := hok; omega
    by_cases h2 : seqle e.2 seq = true
    · -- unlink the whole range
      obtain ⟨ihwf, ihlen, ihsum, ihle⟩ := ih (wfEntries_tail hwf)
      have hstep : removeGo seq (e :: rest) =
          ((removeGo seq rest).1, (removeGo seq rest).2 + entrySize e) := by
        simp [removeGo, h2]
      rw [hstep]
      dsimp only
      refine ⟨ihwf, by simpa using le_trans ihlen (by simp), ?_, ?_⟩
      · rw [ihsum, entrySize_eq he1H he2H, sumSizesN_cons]
        have := hok.1
        omega
      · rw [sumSizesN_cons]
        omega
    · by_cases h1 : seqle e.1 seq = true
      · -- split the straddled range
        have hsH : seq < SEQ_HALF := split_in_window hok hseq h2 h1
        have hle1 : e.1 ≤ seq := by
          rw [seqle_eq he1H hsH] at h1
          simpa using h1
        have hlt2 : seq < e.2 := by
          rw [seqle_eq he2H hsH] at h2
          simp at h2
          omega
        have hstep : removeGo seq (e :: rest) =
            ((seqinc seq, e.2) :: rest, seqoff e.1 seq + 1) := by
          simp [removeGo, h2, h1]
        rw [hstep, seqinc_eq hsH, seqoff_eq he1H hsH]
        obtain ⟨hok1, hok2⟩ := hok
        refine ⟨?_, by simp, ?_, ?_⟩
        · constructor
          · intro x hx
            rcases List.mem_cons.mp hx with rfl | hx'
            · exact ⟨by omega, hok2⟩
            · exact hwf.1 x (List.mem_cons_of_mem _ hx')
          · rw [List.chain'_cons']
            obtain ⟨-, hch⟩ := hwf
            rw [List.chain'_cons'] at hch
            exact ⟨fun y hy => hch.1 y hy, hch.2⟩
        · rw [sumSizesN_cons, sumSizesN_cons]
          omega
        · rw [sumSizesN_cons, sumSizesN_cons]
          omega
      · -- stop: `seq` is in the modular past of this range
        have hstep : removeGo seq (e :: rest) = (e :: rest, 0) := by
          simp [removeGo, h2, h1]
        rw [hstep]
        dsimp only
        exact ⟨hwf, le_refl _, by omega, le_refl _⟩

/-- `remove` preserves the loss-list invariant. -/
theorem remove_preserves (st : CSndLossList) (seq : Nat)
    (hInv : Inv st) (hseq : seq < SEQ_MOD) : Inv (st.remove seq) := by
  obtain ⟨hwf, hlen, hcap⟩ := hInv
  unfold CSndLossList.remove
  split
  · exact ⟨hwf, hlen, hcap⟩
  · rename_i e rest heq
    split
    · obtain ⟨h1, h2, h3, h4⟩ := removeGo_wf hseq (heq ▸ hwf)
      refine ⟨h1, ?_, ?_⟩
      · simp only []
        rw [h3, hlen, heq]
        omega
      · simp only []
        exact le_trans h2 (by rw [← heq]; exact hcap)
    · exact ⟨hwf, hlen, hcap⟩

/-- What `removeGo` keeps: exactly the recorded numbers strictly greater
than `seq` (near-window case). -/
theorem removeGo_lossSet {seq : Nat} (hseq : seq < SEQ_HALF) :
    ∀ {es : List LossEntry}, wfEntries es →
      lossSet (removeGo seq es).1 =
        (lossSet es).filter (fun x => seqlt seq x) := by
  intro es
  induction es with
  | nil => intro _; simp [removeGo]
  | cons e rest ih =>
    intro hwf
    have hok : entryOK e := hwf.1 e (by simp)
    have hBH := SEQ_B_lt_HALF
    have he1H : e.1 < SEQ_HALF := by obtain ⟨a, b⟩ := hok; omega
    have he2H : e.2 < SEQ_HALF := by obtain ⟨a, b⟩ := hok; omega
    have hloss_lt : ∀ x ∈ lossSet (e :: rest), x < SEQ_HALF := by
      intro x hx
      have := lossSet_lt_B hwf hx
      omega
    by_cases h2 : seqle e.2 seq = true
    · have hle2 : e.2 ≤ seq := by
        rw [seqle_eq he2H hseq] at h2
        simpa using h2
      have hstep : (removeGo seq (e :: rest)).1 = (removeGo seq rest).1 := by
        simp [removeGo, h2]
      rw [hstep, ih (wfEntries_tail hwf), lossSet_cons, Finset.filter_union]
      have hempty : (Finset.Icc e.1 e.2).filter (fun x => seqlt seq x) = ∅ := by
        rw [Finset.filter_eq_empty_iff]
        intro x hx
        have hxle := (Finset.mem_Icc.mp hx).2
        rw [seqlt_eq hseq (by omega)]
        simp
        omega
      rw [hempty, Finset.empty_union]
    · by_cases h1 : seqle e.1 seq = true
      · have hle1 : e.1 ≤ seq := by
          rw [seqle_eq he1H hseq] at h1
          simpa using h1
        have hlt2 : seq < e.2 := by
          rw [seqle_eq he2H hseq] at h2
          simp at h2
          omega
        have hstep : (removeGo seq (e :: rest)).1 = (seqinc seq, e.2) :: rest := by
          simp [removeGo, h2, h1]
        rw [hstep, seqinc_eq hseq, lossSet_cons, lossSet_cons,
          Finset.filter_union]
        have hIcc : (Finset.Icc e.1 e.2).filter (fun x => seqlt seq x) =
            Finset.Icc (seq + 1) e.2 := by
          ext x
          simp only [Finset.mem_filter, Finset.mem_Icc]
          constructor
          · rintro ⟨⟨hx1, hx2⟩, hx3⟩
            rw [seqlt_eq hseq (by omega)] at hx3
            simp at hx3
            omega
          · rintro ⟨hx1, hx2⟩
            refine ⟨⟨by omega, hx2⟩, ?_⟩
            rw [seqlt_eq hseq (by omega)]
            simp
            omega
        have hrest : (lossSet rest).filter (fun x => seqlt seq x) =
            lossSet rest := by
          apply Finset.filter_true_of_mem
          intro x hx
          have hlow := lossSet_lower hwf hx
          have hxB := lossSet_lt_B (wfEntries_tail hwf) hx
          rw [seqlt_eq hseq (by omega)]
          simp
          omega
        rw [hIcc, hrest]
      · have hlt1 : seq < e.1 := by
          rw [seqle_eq he1H hseq] at h1
          simp at h1
          omega
        have hstep : (removeGo seq (e :: rest)).1 = e :: rest := by
          simp [removeGo, h2, h1]
        rw [hstep]
        symm
        apply Finset.filter_true_of_mem
        intro x hx
        obtain ⟨e', he', hx1, hx2⟩ := mem_lossSet.mp hx
        have hmin := wf_head_min hwf e' he'
        have hxH : x < SEQ_HALF := hloss_lt x hx
        rw [seqlt_eq hseq hxH]
        simp
        omega

/-- `remove` with an argument in the modular past of the head is a no-op. -/
theorem remove_past (st : CSndLossList) (seq : Nat) {e0 : LossEntry}
    (he : st.entries.head? = some e0) (hpast : seqoff e0.1 seq < 0) :
    st.remove seq = st := by
  unfold CSndLossList.remove
  split
  · rfl
  · rename_i e rest heq
    have he0 : e = e0 := by
      rw [heq] at he
      simpa using he
    subst he0
    rw [if_neg (by simp [seqle]; omega)]

/-- The loss set after `remove seq` (near-window case): exactly the numbers
strictly greater than `seq` survive. -/
theorem remove_lossSet (st : CSndLossList) (seq : Nat)
    (hInv : Inv st) (hseq : seq < SEQ_HALF) :
    lossSet (st.remove seq).entries =
      (lossSet st.entries).filter (fun x => seqlt seq x) := by
  obtain ⟨hwf, -, -⟩ := hInv
  unfold CSndLossList.remove
  split
  · rename_i heq
    rw [heq]
    simp
  · rename_i e rest heq
    split
    · simp only []
      rw [← heq]
      exact removeGo_lossSet hseq (by rw [heq]; exact heq ▸ hwf)
    · rename_i hguard
      have hwf' : wfEntries (e :: rest) := heq ▸ hwf
      have hok : entryOK e := hwf'.1 e (by simp)
      have hBH := SEQ_B_lt_HALF
      have hlt1 : seq < e.1 := by
        rw [seqle_eq (by obtain ⟨a, b⟩ := hok; omega) hseq] at hguard
        simp at hguard
        omega
      symm
      apply Finset.filter_true_of_mem
      intro x hx
      rw [heq] at hx
      obtain ⟨e', he', hx1, hx2⟩ := mem_lossSet.mp hx
      have hmin := wf_head_min hwf' e' he'
      have hxH : x < SEQ_HALF := by
        have := lossSet_lt_B hwf' hx
        omega
      rw [seqlt_eq hseq hxH]
      simp
      omega

/-! ### `popLostSeq` analysis -/

theorem pop_of_empty (st : CSndLossList) (h : st.entries = []) :
    st.popLostSeq = (-1, st) := by
  unfold CSndLossList.popLostSeq
  split
  · rfl
  · rename_i e t rest heq
    rw [h] at heq
    cases heq

/-- Everything `popLostSeq` guarantees on a non-empty well-formed list: a
non-negative result which is the minimum recorded number, removal of exactly
that number, the length decrement, preservation of the invariant, and the
drop of the total count by one. -/
theorem pop_core (st : CSndLossList) (hInv : Inv st) (hne : st.entries ≠ []) :
    0 ≤ st.popLostSeq.1 ∧
    st.popLostSeq.1.toNat ∈ lossSet st.entries ∧
    (∀ x ∈ lossSet st.entries, st.popLostSeq.1.toNat ≤ x) ∧
    lossSet st.popLostSeq.2.entries =
      (lossSet st.entries).erase st.popLostSeq.1.toNat ∧
    st.popLostSeq.2.length = st.length - 1 ∧
    Inv st.popLostSeq.2 ∧
    sumSizesN st.popLostSeq.2.entries + 1 = sumSizesN st.entries := by
  obtain ⟨hwf, hlen, hcap⟩ := hInv
  unfold CSndLossList.popLostSeq
  split
  · rename_i heq
    exact absurd heq hne
  · rename_i h t rest heq
    have hwf' : wfEntries ((h, t) :: rest) := heq ▸ hwf
    have hok : entryOK (h, t) := hwf'.1 _ (by simp)
    have hht : h ≤ t := hok.1
    have htB : t < SEQ_B := hok.2
    have hBH := SEQ_B_lt_HALF
    have hmin : ∀ x ∈ lossSet st.entries, h ≤ x := by
      intro x hx
      rw [heq] at hx
      obtain ⟨e', he', hx1, hx2⟩ := mem_lossSet.mp hx
      have := wf_head_min hwf' e' he'
      simp only [] at this
      omega
    have hmem : h ∈ lossSet st.entries := by
      rw [heq, lossSet_cons]
      exact Finset.mem_union_left _ (Finset.mem_Icc.mpr ⟨le_refl _, hht⟩)
    have hnotin : h ∉ lossSet rest := by
      intro hc
      have := lossSet_lower hwf' hc
      simp only [] at this
      omega
    split
    · -- the popped number was the sole element of its range
      rename_i hEq
      subst hEq
      refine ⟨by positivity, by simpa using hmem, by simpa using hmin, ?_, rfl, ?_, ?_⟩
      · simp only [Int.toNat_natCast]
        rw [heq, lossSet_cons]
        ext x
        simp only [Finset.mem_erase, Finset.mem_union, Finset.mem_Icc]
        constructor
        · intro hx
          have hge := lossSet_lower hwf' hx
          simp only [] at hge
          exact ⟨by omega, Or.inr hx⟩
        · rintro ⟨hne', h1 | h1⟩
          · omega
          · exact h1
      · refine ⟨wfEntries_tail hwf', ?_, ?_⟩
        · simp only []
          rw [hlen, heq, sumSizesN_cons]
          simp only []
          omega
        · simp only []
          rw [heq] at hcap
          simp at hcap
          omega
      · simp only []
        rw [heq, sumSizesN_cons]
        simp only []
        omega
    · -- advance the head of the leading range
      rename_i hNe
      have hhlt : h < t := lt_of_le_of_ne hht hNe
      rw [seqinc_eq (by omega)]
      refine ⟨by positivity, by simpa using hmem, by simpa using hmin, ?_, rfl, ?_, ?_⟩
      · simp only [Int.toNat_natCast]
        rw [heq, lossSet_cons, lossSet_cons]
        ext x
        simp only [Finset.mem_erase, Finset.mem_union, Finset.mem_Icc]
        constructor
        · rintro (⟨h1, h2⟩ | hx)
          · exact ⟨by omega, Or.inl ⟨by omega, h2⟩⟩
          · have hge := lossSet_lower hwf' hx
            simp only [] at hge
            exact ⟨by omega, Or.inr hx⟩
        · rintro ⟨hne', ⟨h1, h2⟩ | h1⟩
          · exact Or.inl ⟨by omega, h2⟩
          · exact Or.inr h1
      · refine ⟨?_, ?_, ?_⟩
        · constructor
          · intro x hx
            rcases List.mem_cons.mp hx with rfl | hx'
            · exact ⟨by omega, htB⟩
            · exact hwf'.1 x (List.mem_cons_of_mem _ hx')
          · rw [List.chain'_cons']
            obtain ⟨-, hch⟩ := hwf'
            rw [List.chain'_cons'] at hch
            exact ⟨fun y hy => hch.1 y hy, hch.2⟩
        · simp only []
          rw [hlen, heq, sumSizesN_cons, sumSizesN_cons]
          simp only []
          omega
        · simp only []
          rw [heq] at hcap
          simpa using hcap
      · simp only []
        rw [heq, sumSizesN_cons, sumSizesN_cons]
        simp only []
        omega

/-! ### Draining the list and running operation sequences -/

/-- Call `popLostSeq` up to `fuel` times, stopping at the first `-1`;
returns the popped values and the final state. -/
def drainAux : Nat → CSndLossList → List Int × CSndLossList
  | 0, st => ([], st)
  | fuel + 1, st =>
    let p := st.popLostSeq
    if p.1 = -1 then ([], st)
    else
      let q := drainAux fuel p.2
      (p.1 :: q.1, q.2)

/-- A well-formed non-empty chain records at least one number. -/
theorem sumSizesN_pos {es : List LossEntry} (hwf : wfEntries es)
    (hne : es ≠ []) : 1 ≤ sumSizesN es := by
  cases es with
  | nil => exact absurd rfl hne
  | cons e rest =>
    have hok : entryOK e := hwf.1 e (by simp)
    rw [sumSizesN_cons]
    have := hok.1
    omega

/-- With fuel equal to the recorded count, draining returns exactly that
many values and empties the list. -/
theorem drain_spec : ∀ (n : Nat) (st : CSndLossList), Inv st →
    sumSizesN st.entries = n →
    (drainAux n st).1.length = n ∧ (drainAux n st).2.entries = [] := by
  intro n
  induction n with
  | zero =>
    intro st hInv hn
    refine ⟨rfl, ?_⟩
    show st.entries = []
    by_contra hne
    have := sumSizesN_pos hInv.1 hne
    omega
  | succ n ih =>
    intro st hInv hn
    have hne : st.entries ≠ [] := by
      intro hc
      rw [hc] at hn
      simp [sumSizesN] at hn
    obtain ⟨hpos, -, -, -, -, hInv', hsum⟩ := pop_core st hInv hne
    have hnm1 : st.popLostSeq.1 ≠ -1 := by omega
    have hstep : drainAux (n + 1) st =
        (st.popLostSeq.1 :: (drainAux n st.popLostSeq.2).1,
          (drainAux n st.popLostSeq.2).2) := by
      simp [drainAux, hnm1]
    obtain ⟨ih1, ih2⟩ := ih st.popLostSeq.2 hInv' (by omega)
    rw [hstep]
    exact ⟨by simp [ih1], ih2⟩

/-- One loss-list operation, as recorded by the spec's interface. -/
inductive LLOp where
  | ins : Nat → Nat → LLOp
  | rm : Nat → LLOp
  | pop : LLOp
deriving DecidableEq, Repr

/-- Apply one operation, discarding the returned value. -/
def applyOp (st : CSndLossList) : LLOp → CSndLossList
  | .ins lo hi => (st.insert lo hi).2
  | .rm seq => st.remove seq
  | .pop => st.popLostSeq.2

/-- Run a sequence of operations from a starting state. -/
def runOps (ops : List LLOp) (st : CSndLossList) : CSndLossList :=
  ops.foldl applyOp st

/-- Validity of one operation: insert ranges are proper and inside the
normalised window, removals are valid sequence numbers. -/
def opValid : LLOp → Prop
  | .ins lo hi => validRange lo hi
  | .rm seq => seq < SEQ_MOD
  | .pop => True

instance : DecidablePred opValid := fun op =>
  match op with
  | .ins lo hi => inferInstanceAs (Decidable (validRange lo hi))
  | .rm seq => inferInstanceAs (Decidable (seq < SEQ_MOD))
  | .pop => inferInstanceAs (Decidable True)

theorem Inv_new (cap : Nat) : Inv (CSndLossList.new cap) := by
  refine ⟨wfEntries_nil, rfl, by simp [CSndLossList.new]⟩

theorem pop_preserves (st : CSndLossList) (hInv : Inv st) :
    Inv st.popLostSeq.2 := by
  by_cases hne : st.entries = []
  · rw [pop_of_empty st hne]
    exact hInv
  · exact (pop_core st hInv hne).2.2.2.2.2.1

theorem applyOp_preserves (st : CSndLossList) (op : LLOp)
    (hInv : Inv st) (hv : opValid op) : Inv (applyOp st op) := by
  cases op with
  | ins lo hi => exact insert_preserves st lo hi hInv hv
  | rm seq => exact remove_preserves st seq hInv hv
  | pop => exact pop_preserves st hInv

theorem runOps_preserves (ops : List LLOp) (st : CSndLossList)
    (hInv : Inv st) (hv : ∀ op ∈ ops, opValid op) : Inv (runOps ops st) := by
  induction ops generalizing st with
  | nil => exact hInv
  | cons op ops' ih =>
    exact ih (applyOp st op)
      (applyOp_preserves st op hInv (hv op (by simp)))
      (fun o ho => hv o (List.mem_cons_of_mem _ ho))

/-! ### Remaining helpers for the claim theorems -/

/-- The `length` bookkeeping of `insert`: the stored scalar always grows by
exactly the returned value (also across the capacity guard). -/
theorem insertP_len (st : CSndLossList) (lo hi : Nat) :
    (insertP st lo hi).2.length = st.length + (insertP st lo hi).1 := by
  rw [insertP_eq]
  split
  · simp
  · simp

theorem takeWhile_append_cons {α : Type _} {p : α → Bool} {l₁ : List α}
    {b : α} {l₂ : List α} (h1 : ∀ a ∈ l₁, p a = true) (hb : p b = false) :
    (l₁ ++ b :: l₂).takeWhile p = l₁ := by
  induction l₁ with
  | nil => simp [List.takeWhile_cons, hb]
  | cons a l ih =>
    simp only [List.cons_append, List.takeWhile_cons, h1 a (by simp),
      if_true]
    rw [ih (fun x hx => h1 x (by simp [hx]))]

theorem dropWhile_append_cons {α : Type _} {p : α → Bool} {l₁ : List α}
    {b : α} {l₂ : List α} (h1 : ∀ a ∈ l₁, p a = true) (hb : p b = false) :
    (l₁ ++ b :: l₂).dropWhile p = b :: l₂ := by
  induction l₁ with
  | nil => simp [List.dropWhile_cons, hb]
  | cons a l ih =>
    simp only [List.cons_append, List.dropWhile_cons, h1 a (by simp),
      if_true]
    exact ih (fun x hx => h1 x (by simp [hx]))

/-! ## The claims -/

/-- C5: if an `insert(lo, hi)` call would push the number of stored entries
above the capacity fixed at construction, the call returns 0 and the list
state (entries and length) is exactly as before the call. -/
theorem C5_capacity_overflow (st : CSndLossList) (lo hi : Nat)
    (hInv : Inv st) (hv : validRange lo hi)
    (hfull : st.entries.length = st.capacity)
    (hdisj : ∀ e ∈ st.entries, e.2 + 2 ≤ lo ∨ hi + 2 ≤ e.1) :
    st.insert lo hi = (0, st) := by
  obtain ⟨hwf, -, -⟩ := hInv
  rw [insert_eq_plain st lo hi hwf hv, insertP_eq]
  have hM : partM lo hi st.entries = [] := by
    cases hR : partR lo st.entries with
    | nil =>
      unfold partM
      rw [hR]
      rfl
    | cons e0 t =>
      have he0R : e0 ∈ partR lo st.entries := by rw [hR]; simp
      have he0 : e0 ∈ st.entries := (List.dropWhile_sublist _).mem he0R
      have hnb : lo ≤ e0.2 + 1 := by
        have := List.head?_dropWhile_not
          (fun e => decide (e.2 + 1 < lo)) st.entries
        rw [show st.entries.dropWhile (fun e => decide (e.2 + 1 < lo)) =
            partR lo st.entries from rfl, hR] at this
        simpa using this
      have hright : hi + 2 ≤ e0.1 := by
        rcases hdisj e0 he0 with h | h
        · omega
        · exact h
      unfold partM
      rw [hR, List.takeWhile_cons]
      rw [if_neg (by simp; omega)]
  have hlen : st.entries.length = (partB lo st.entries).length +
      (partA lo hi st.entries).length := by
    obtain ⟨hdec, -⟩ := parts_decomp lo hi st.entries
    conv_lhs => rw [hdec]
    rw [hM]
    simp
  rw [if_pos (by omega)]

/-- C6: for every valid range, the value returned by `insert(lo, hi)` lies
in `[0, hi − lo + 1]`, and `getLossLength()` after the call equals
`getLossLength()` before the call plus that return value. -/
theorem C6_insert_return_range (st : CSndLossList) (lo hi : Nat)
    (hInv : Inv st) (hv : validRange lo hi) :
    0 ≤ (st.insert lo hi).1 ∧
    (st.insert lo hi).1 ≤ (hi : Int) - (lo : Int) + 1 ∧
    (st.insert lo hi).2.getLossLength =
      st.getLossLength + (st.insert lo hi).1 := by
  obtain ⟨hwf, hlen, hcap⟩ := hInv
  rw [insert_eq_plain st lo hi hwf hv]
  refine ⟨?_, ?_, insertP_len st lo hi⟩
  · by_cases hng : st.capacity < (partB lo st.entries).length + 1 +
        (partA lo hi st.entries).length
    · rw [insertP_eq, if_pos hng]
    · rw [insertP_ret_card hwf hv hng]
      positivity
  · by_cases hng : st.capacity < (partB lo st.entries).length + 1 +
        (partA lo hi st.entries).length
    · rw [insertP_eq, if_pos hng]
      have := hv.1
      simp only []
      omega
    · rw [insertP_ret_card hwf hv hng]
      have hsub : (Finset.Icc lo hi \ lossSet st.entries).card ≤
          (Finset.Icc lo hi).card :=
        Finset.card_le_card (Finset.sdiff_subset)
      rw [Nat.card_Icc] at hsub
      have := hv.1
      omega

/-- C4: `insert(lo, hi)` returns the number of sequence numbers in
`[lo, hi]` not already recorded in the list; in particular, inserting the
same range a second time with no intervening mutation returns 0 and leaves
`length` unchanged. -/
theorem C4_insert_counts_new (st : CSndLossList) (lo hi : Nat)
    (hInv : Inv st) (hv : validRange lo hi)
    (hroom : st.entries.length < st.capacity) :
    (st.insert lo hi).1 =
      ((Finset.Icc lo hi \ lossSet st.entries).card : Int) ∧
    ((st.insert lo hi).2.insert lo hi).1 = 0 ∧
    ((st.insert lo hi).2.insert lo hi).2.getLossLength =
      (st.insert lo hi).2.getLossLength := by
  obtain ⟨hwf, hlen, hcap⟩ := hInv
  have hng := @no_guard_of_room st lo hi hroom
  have hInv1 : Inv (st.insert lo hi).2 :=
    insert_preserves st lo hi ⟨hwf, hlen, hcap⟩ hv
  obtain ⟨hwf1, hlen1, hcap1⟩ := hInv1
  -- the state after the first insert, in explicit form
  have hform : (st.insert lo hi).2.entries =
      partB lo st.entries ++
        (mergeHeadP (partM lo hi st.entries) lo,
         mergeTailP (partM lo hi st.entries) hi) :: partA lo hi st.entries := by
    rw [insert_eq_plain st lo hi hwf hv, insertP_eq, if_neg hng]
  have hok := @newEntry_ok lo hi st.entries hwf hv
  -- the second partition keeps the coalesced entry in the merged block
  have hB1 : partB lo (st.insert lo hi).2.entries = partB lo st.entries := by
    unfold partB
    rw [hform]
    exact takeWhile_append_cons
      (fun a ha => by simpa using partB_mem ha)
      (by
        simp only [decide_eq_false_iff_not, not_lt]
        have h1 := le_mergeTailP (partM lo hi st.entries) hi
        have h2 := hv.1
        omega)
  have hR1 : partR lo (st.insert lo hi).2.entries =
      (mergeHeadP (partM lo hi st.entries) lo,
       mergeTailP (partM lo hi st.entries) hi) :: partA lo hi st.entries := by
    unfold partR
    rw [hform]
    exact dropWhile_append_cons
      (fun a ha => by simpa using partB_mem ha)
      (by
        simp only [decide_eq_false_iff_not, not_lt]
        have h1 := le_mergeTailP (partM lo hi st.entries) hi
        have h2 := hv.1
        omega)
  have hM1ne : partM lo hi (st.insert lo hi).2.entries ≠ [] := by
    unfold partM
    rw [hR1, List.takeWhile_cons]
    rw [if_pos (by
      simp only [decide_eq_true_eq]
      have := mergeHeadP_le (partM lo hi st.entries) lo
      have := hv.1
      omega)]
    simp
  have hng1 := @no_guard_of_merged (st.insert lo hi).2 lo hi hcap1 hM1ne
  have hsets : lossSet (st.insert lo hi).2.entries =
      lossSet st.entries ∪ Finset.Icc lo hi := by
    rw [insert_eq_plain st lo hi hwf hv]
    exact insertP_lossSet hwf hv hng
  refine ⟨?_, ?_, ?_⟩
  · rw [insert_eq_plain st lo hi hwf hv]
    exact insertP_ret_card hwf hv hng
  · rw [insert_eq_plain _ lo hi hwf1 hv]
    rw [insertP_ret_card hwf1 hv hng1]
    rw [hsets]
    have : Finset.Icc lo hi \ (lossSet st.entries ∪ Finset.Icc lo hi) = ∅ := by
      rw [Finset.sdiff_eq_empty_iff_subset]
      exact Finset.subset_union_right
    rw [this]
    simp
  · have h0 : ((st.insert lo hi).2.insert lo hi).1 = 0 := by
      rw [insert_eq_plain _ lo hi hwf1 hv]
      rw [insertP_ret_card hwf1 hv hng1]
      rw [hsets]
      have : Finset.Icc lo hi \ (lossSet st.entries ∪ Finset.Icc lo hi) = ∅ := by
        rw [Finset.sdiff_eq_empty_iff_subset]
        exact Finset.subset_union_right
      rw [this]
      simp
    show ((st.insert lo hi).2.insert lo hi).2.length =
      (st.insert lo hi).2.length
    rw [insert_eq_plain _ lo hi hwf1 hv] at h0 ⊢
    rw [insertP_len, h0, add_zero]

/-- C3: `remove(seq)` deletes from the list exactly those sequence numbers
`s ≤ seq` in modular order (splitting a straddled range so that
`[seq+1, tail]` remains), and when `seq` lies in the modular past of the
current head, `remove(seq)` leaves the list completely unchanged. -/
theorem C3_remove_spec (st : CSndLossList) (seq : Nat) (hInv : Inv st) :
    (∀ e0, st.entries.head? = some e0 → seqoff e0.1 seq < 0 →
      st.remove seq = st) ∧
    (seq < SEQ_HALF →
      lossSet (st.remove seq).entries =
        (lossSet st.entries).filter (fun x => seqlt seq x)) := by
  constructor
  · intro e0 he hpast
    exact remove_past st seq he hpast
  · intro hseq
    exact remove_lossSet st seq hInv hseq

/-- C2: `popLostSeq` removes and returns the smallest sequence number
currently in the list (in modular 31-bit order) and decrements `length` by
one; it returns `-1` iff the list is empty, and in that case the list is
unchanged. -/
theorem C2_pop_spec (st : CSndLossList) (hInv : Inv st) :
    (st.popLostSeq.1 = -1 ↔ st.entries = []) ∧
    (st.entries = [] → st.popLostSeq.2 = st) ∧
    (st.entries ≠ [] →
      0 ≤ st.popLostSeq.1 ∧
      st.popLostSeq.1.toNat ∈ lossSet st.entries ∧
      (∀ x ∈ lossSet st.entries, seqle st.popLostSeq.1.toNat x = true) ∧
      lossSet st.popLostSeq.2.entries =
        (lossSet st.entries).erase st.popLostSeq.1.toNat ∧
      st.popLostSeq.2.getLossLength = st.getLossLength - 1) := by
  have hBH := SEQ_B_lt_HALF
  refine ⟨?_, ?_, ?_⟩
  · constructor
    · intro h1
      by_contra hne
      have := (pop_core st hInv hne).1
      omega
    · intro he
      rw [pop_of_empty st he]
  · intro he
    rw [pop_of_empty st he]
  · intro hne
    obtain ⟨h1, h2, h3, h4, h5, -, -⟩ := pop_core st hInv hne
    refine ⟨h1, h2, ?_, h4, h5⟩
    intro x hx
    have hxB : x < SEQ_B := lossSet_lt_B hInv.1 hx
    have hpB : st.popLostSeq.1.toNat < SEQ_B := lossSet_lt_B hInv.1 h2
    rw [seqle_eq (by omega) (by omega)]
    simpa using h3 x hx

/-- C1: for every finite sequence of valid `insert`/`remove`/`popLostSeq`
operations on a fresh `CSndLossList`, `getLossLength()` afterwards equals
the sum over all live entries of `tail − head + 1`, which equals the number
of values obtained by calling `popLostSeq` repeatedly until it returns
`-1`. -/
theorem C1_length_invariant (cap : Nat) (ops : List LLOp)
    (hv : ∀ op ∈ ops, opValid op) :
    (runOps ops (CSndLossList.new cap)).getLossLength =
      sumSizes (runOps ops (CSndLossList.new cap)).entries ∧
    (runOps ops (CSndLossList.new cap)).getLossLength =
      (sumSizesN (runOps ops (CSndLossList.new cap)).entries : Int) ∧
    (drainAux (sumSizesN (runOps ops (CSndLossList.new cap)).entries)
        (runOps ops (CSndLossList.new cap))).1.length =
      sumSizesN (runOps ops (CSndLossList.new cap)).entries ∧
    (drainAux (sumSizesN (runOps ops (CSndLossList.new cap)).entries)
        (runOps ops (CSndLossList.new cap))).2.popLostSeq.1 = -1 := by
  have hInv : Inv (runOps ops (CSndLossList.new cap)) :=
    runOps_preserves ops _ (Inv_new cap) hv
  obtain ⟨hwf, hlen, hcap⟩ := hInv
  have hdr := drain_spec (sumSizesN (runOps ops (CSndLossList.new cap)).entries)
    (runOps ops (CSndLossList.new cap)) ⟨hwf, hlen, hcap⟩ rfl
  refine ⟨?_, hlen, hdr.1, ?_⟩
  · rw [sumSizes_eq hwf.1]
    exact hlen
  · rw [pop_of_empty _ hdr.2]

/-! ### Witnesses for the loss-list claims -/

/-- Concrete state for the C2 witness. -/
def c2state : CSndLossList := ⟨4, [(3, 5), (9, 9)], 4⟩

/-- Witness for C2 at a concrete state. -/
theorem C2_pop_spec_witness :
    (c2state.popLostSeq.1 = -1 ↔ c2state.entries = []) ∧
    c2state.popLostSeq.2.getLossLength = c2state.getLossLength - 1 :=
  ⟨(C2_pop_spec c2state (by decide)).1,
   ((C2_pop_spec c2state (by decide)).2.2 (by decide)).2.2.2.2⟩

/-- Concrete state for the C3 witness (the scenario of gtest
`BasicRemoveInListNotInNodeHead07` and `...04`). -/
def c3state : CSndLossList := ⟨8, [(1, 2), (4, 8), (10, 12)], 10⟩

/-- Witness for C3: a modular-past removal is a no-op, and `remove 5` keeps
exactly the recorded numbers above 5. -/
theorem C3_remove_spec_witness :
    c3state.remove (2 ^ 31 - 50) = c3state ∧
    lossSet (c3state.remove 5).entries =
      (lossSet c3state.entries).filter (fun x => seqlt 5 x) :=
  ⟨(C3_remove_spec c3state (2 ^ 31 - 50) (by decide)).1 (1, 2) rfl (by decide),
   (C3_remove_spec c3state 5 (by decide)).2 (by decide)⟩

/-- Concrete state for the C4 witness. -/
def c4state : CSndLossList := ⟨8, [(1, 5), (8, 9)], 7⟩

/-- Witness for C4 at a concrete state and range. -/
theorem C4_insert_counts_new_witness :
    (c4state.insert 2 6).1 =
      ((Finset.Icc 2 6 \ lossSet c4state.entries).card : Int) ∧
    ((c4state.insert 2 6).2.insert 2 6).1 = 0 ∧
    ((c4state.insert 2 6).2.insert 2 6).2.getLossLength =
      (c4state.insert 2 6).2.getLossLength :=
  C4_insert_counts_new c4state 2 6 (by decide) (by decide) (by decide)

/-- A list filled to its capacity of 256 with 256 disjoint singleton
entries, for the C5 witness (the spec's scenario H). -/
def c5state : CSndLossList :=
  ⟨256, (List.range 256).map (fun i => (2 * i, 2 * i)), 256⟩

set_option maxRecDepth 40000 in
/-- Witness for C5: inserting a fresh singleton into the full list returns
0 and leaves the state untouched. -/
theorem C5_capacity_overflow_witness : c5state.insert 513 513 = (0, c5state) :=
  C5_capacity_overflow c5state 513 513 (by decide) (by decide) (by decide)
    (by decide)

/-- Concrete state for the C6 witness. -/
def c6state : CSndLossList := ⟨8, [(4, 6)], 3⟩

/-- Witness for C6 at a concrete state and range. -/
theorem C6_insert_return_range_witness :
    0 ≤ (c6state.insert 1 10).1 ∧
    (c6state.insert 1 10).1 ≤ (10 : Int) - (1 : Int) + 1 ∧
    (c6state.insert 1 10).2.getLossLength =
      c6state.getLossLength + (c6state.insert 1 10).1 :=
  C6_insert_return_range c6state 1 10 (by decide) (by decide)

/-- Operation sequence for the C1 witness. -/
def c1ops : List LLOp :=
  [LLOp.ins 1 2, LLOp.ins 4 8, LLOp.pop, LLOp.rm 5, LLOp.ins 10 12]

/-- Witness for C1 on a concrete operation sequence. -/
theorem C1_length_invariant_witness :
    (runOps c1ops (CSndLossList.new 16)).getLossLength =
      sumSizes (runOps c1ops (CSndLossList.new 16)).entries ∧
    (runOps c1ops (CSndLossList.new 16)).getLossLength =
      (sumSizesN (runOps c1ops (CSndLossList.new 16)).entries : Int) ∧
    (drainAux (sumSizesN (runOps c1ops (CSndLossList.new 16)).entries)
        (runOps c1ops (CSndLossList.new 16))).1.length =
      sumSizesN (runOps c1ops (CSndLossList.new 16)).entries ∧
    (drainAux (sumSizesN (runOps c1ops (CSndLossList.new 16)).entries)
        (runOps c1ops (CSndLossList.new 16))).2.popLostSeq.1 = -1 :=
  C1_length_invariant 16 c1ops (by decide)

/-! ## Time conversions (`srtcore/sync.cpp`)

`count_*` divide a tick count by the cpu frequency (C++ `int64_t` division,
which truncates towards zero, hence `Int.tdiv`); the `*_from` constructors
multiply before dividing.  `s_cpu_frequency` is a runtime constant, modelled
as the parameter `freq`. -/

/-- `count_microseconds`: `t.count() / s_cpu_frequency`. -/
def count_microseconds (freq t : Int) : Int := Int.tdiv t freq

/-- `count_milliseconds`: `t.count() / s_cpu_frequency / 1000`. -/
def count_milliseconds (freq t : Int) : Int := Int.tdiv (Int.tdiv t freq) 1000

/-- `count_seconds`: `t.count() / s_cpu_frequency / 1000000`. -/
def count_seconds (freq t : Int) : Int := Int.tdiv (Int.tdiv t freq) 1000000

/-- `microseconds_from`: `t_us * s_cpu_frequency`. -/
def microseconds_from (freq t_us : Int) : Int := t_us * freq

/-- `milliseconds_from`: `(1000 * t_ms) * s_cpu_frequency`. -/
def milliseconds_from (freq t_ms : Int) : Int := 1000 * t_ms * freq

/-- `seconds_from`: `(1000000 * t_s) * s_cpu_frequency`. -/
def seconds_from (freq t_s : Int) : Int := 1000000 * t_s * freq

/-- C7: for every integer `n` (absent 64-bit overflow, which the unbounded
`Int` model abstracts away), the microsecond, millisecond and second
round-trips through the duration constructors are exact — in particular
within the claim's one-tick tolerance. -/
theorem C7_duration_roundtrip (freq n : Int) (hf : 1 ≤ freq) :
    count_microseconds freq (microseconds_from freq n) = n ∧
    count_milliseconds freq (milliseconds_from freq n) = n ∧
    count_seconds freq (seconds_from freq n) = n := by
  have hf0 : freq ≠ 0 := by omega
  refine ⟨Int.mul_tdiv_cancel n hf0, ?_, ?_⟩
  · unfold count_milliseconds milliseconds_from
    rw [Int.mul_tdiv_cancel _ hf0, mul_comm 1000 n,
      Int.mul_tdiv_cancel n (by norm_num)]
  · unfold count_seconds seconds_from
    rw [Int.mul_tdiv_cancel _ hf0, mul_comm 1000000 n,
      Int.mul_tdiv_cancel n (by norm_num)]

/-- Witness for C7 at a concrete frequency and value. -/
theorem C7_duration_roundtrip_witness :
    (1 : Int) ≤ 7 ∧
    (count_microseconds 7 (microseconds_from 7 (-3)) = -3 ∧
     count_milliseconds 7 (milliseconds_from 7 (-3)) = -3 ∧
     count_seconds 7 (seconds_from 7 (-3)) = -3) :=
  ⟨by decide, C7_duration_roundtrip 7 (-3) (by decide)⟩

/-! ## `Condition::wait_until` (`srtcore/sync.cpp`)

Time points are raw monotonic tick counts; the actual suspension performed
by `wait_for` is abstracted as an oracle of the relative timeout.  The
function mirrors the source: an already-elapsed deadline short-circuits to
`false` before any wait is attempted. -/

/-- `Condition::wait_until(lock, tp)`: `now >= tp → false`, otherwise
`wait_for(lock, tp - now)`. -/
def wait_until (waitFor : Nat → Bool) (now tp : Nat) : Bool :=
  if now ≥ tp then false else waitFor (tp - now)

/-- C8: `wait_until` returns `false` without consulting the timed-wait
oracle whenever the deadline is already in the past (the result does not
depend on the oracle at all), and otherwise behaves exactly as
`wait_for(tp − now)`. -/
theorem C8_wait_until_past (w w' : Nat → Bool) (now tp : Nat) :
    (tp ≤ now → wait_until w now tp = false ∧
      wait_until w now tp = wait_until w' now tp) ∧
    (now < tp → wait_until w now tp = w (tp - now)) := by
  constructor
  · intro h
    unfold wait_until
    rw [if_pos h, if_pos h]
    exact ⟨rfl, rfl⟩
  · intro h
    unfold wait_until
    rw [if_neg (by omega)]

/-- Witness for C8 with concrete oracles and instants. -/
theorem C8_wait_until_past_witness :
    wait_until (fun _ => true) 5 3 = false ∧
    wait_until (fun _ => true) 2 9 = (fun _ => true) (9 - 2) :=
  ⟨((C8_wait_until_past (fun _ => true) (fun _ => false) 5 3).1
      (by decide)).1,
   (C8_wait_until_past (fun _ => true) (fun _ => false) 2 9).2 (by decide)⟩

/-! ## `FormatTime` (`srtcore/sync.cpp`) -/

/-- Zero-pad a number on the left to the given width
(`setfill('0') << setw(w)`). -/
def padZ (w n : Nat) : String :=
  String.mk (List.replicate (w - (Nat.repr n).length) '0') ++ Nat.repr n

/-- `FormatTime` as written in the source: the zero time point short-cut,
then days/hours/minutes/seconds derived by division and subtraction from
the microsecond count `timestamp / s_cpu_frequency`. -/
def FormatTime (freq ts : Nat) : String :=
  if ts = 0 then "00:00:00.000000"
  else
    let total_us := ts / freq
    let us := total_us % 1000000
    let total_sec := total_us / 1000000
    let days := total_sec / (60 * 60 * 24)
    let hours := total_sec / (60 * 60) - days * 24
    let minutes := total_sec / 60 - days * 24 * 60 - hours * 60
    let seconds := total_sec - days * 24 * 60 * 60 - hours * 60 * 60 -
      minutes * 60
    (if days ≠ 0 then Nat.repr days ++ "D " else "") ++
      padZ 2 hours ++ ":" ++ padZ 2 minutes ++ ":" ++ padZ 2 seconds ++
      "." ++ padZ 6 us ++ " [STD]"

/-- The claim's reading of the format: the canonical `[DDD ]HH:MM:SS.uuuuuu
[STD]` decomposition of the microsecond count, every field the standard
division/modulus, two-digit padding for `HH`/`MM`/`SS`, six for the
microseconds, the day field and its trailing space omitted exactly when the
day count is zero. -/
def FormatTimeSpec (freq ts : Nat) : String :=
  let total_us := ts / freq
  let total_sec := total_us / 1000000
  (if total_sec / 86400 = 0 then ""
   else Nat.repr (total_sec / 86400) ++ "D ") ++
    padZ 2 (total_sec / 3600 % 24) ++ ":" ++
    padZ 2 (total_sec / 60 % 60) ++ ":" ++
    padZ 2 (total_sec % 60) ++ "." ++
    padZ 6 (total_us % 1000000) ++ " [STD]"

/-- C9: `FormatTime` renders the distinguished zero time point as exactly
`"00:00:00.000000"` with no suffix, and any other time point as the
canonical `[DDD ]HH:MM:SS.uuuuuu [STD]` rendering of its microsecond
count. -/
theorem C9_format_time (freq ts : Nat) :
    FormatTime freq ts =
      if ts = 0 then "00:00:00.000000" else FormatTimeSpec freq ts := by
  by_cases hts : ts = 0
  · rw [hts]
    rfl
  · unfold FormatTime FormatTimeSpec
    rw [if_neg hts, if_neg hts]
    simp only []
    have e0 : ts / freq / 1000000 / (60 * 60 * 24) =
        ts / freq / 1000000 / 86400 := by norm_num
    have e1 : ts / freq / 1000000 / (60 * 60) -
        ts / freq / 1000000 / (60 * 60 * 24) * 24 =
        ts / freq / 1000000 / 3600 % 24 := by omega
    have e2 : ts / freq / 1000000 / 60 -
        ts / freq / 1000000 / 86400 * 24 * 60 -
        ts / freq / 1000000 / 3600 % 24 * 60 =
        ts / freq / 1000000 / 60 % 60 := by omega
    have e3 : ts / freq / 1000000 -
        ts / freq / 1000000 / 86400 * 24 * 60 * 60 -
        ts / freq / 1000000 / 3600 % 24 * 60 * 60 -
        (ts / freq / 1000000 / 60 -
          ts / freq / 1000000 / 86400 * 24 * 60 -
          ts / freq / 1000000 / 3600 % 24 * 60) * 60 =
        ts / freq / 1000000 % 60 := by omega
    rw [e0, e1, e3, e2, ite_not]

/-! ## `MessageTypeStr` (`srtcore/common.cpp`)

The two string tables are transcribed verbatim; a C++ array read past the
end is undefined behaviour and is modelled by `List.get?` returning `none`.
`UMSG_EXT` is the extended-message marker of the UDT header (`0x7FFF`);
its only role here is to be different from the small message codes. -/

def udt_types : List String :=
  ["handshake", "keepalive", "ack", "lossreport", "cgwarning",
   "shutdown", "ackack", "dropreq", "peererror"]

def srt_types : List String :=
  ["EXT:none", "EXT:hsreq", "EXT:hsrsp", "EXT:kmreq", "EXT:kmrsp",
   "EXT:sid", "EXT:congctl", "EXT:group"]

def UMSG_EXT : Nat := 0x7FFF

/-- `MessageTypeStr`, with the source's guard transcribed exactly:
`size_t(mt) > Size(udt_types)` (note `>`, not `>=`), so the boundary index
slips through to the array access. -/
def MessageTypeStr (mt extt : Nat) : Option String :=
  if mt = UMSG_EXT then
    if extt ≥ srt_types.length then some "EXT:unknown"
    else srt_types.get? extt
  else if mt > udt_types.length then some "unknown"
  else udt_types.get? mt

/-- C10: the claim's safety property fails at the boundary: `mt = 9` is not
`UMSG_EXT`, is not diverted to `"unknown"` by the `>` guard, and indexes
one past the end of the nine-element `udt_types` array (modelled as the
out-of-bounds read `none`).  Every other argument is safe. -/
theorem C10_guard_off_by_one :
    MessageTypeStr 9 0 = none ∧ 9 ≠ UMSG_EXT ∧ udt_types.length = 9 := by
  refine ⟨rfl, by decide, rfl⟩

end Srt
